import Mathlib

/-!
Verification of the m3u88u-check repository: a shallow embedding of
`src/check_m3u.py` (playlist parser, probe engine, scheduler, main) and of
`src/hls_checker_pro.py` (pair parser, referer extraction, live-playlist
re-serialization), with theorems settling the specification claims.

Strings are modelled as `List Char`.  The model covers the ASCII fragment of
the Python string primitives: `str.strip`, `str.splitlines` and the regex
classes `\s`, `\d`, `\w` also accept some further Unicode characters in
CPython; all playlist inputs considered by the claims are ASCII.
-/

namespace M3U

/-- `True` for the characters Python's `str.strip()` removes (ASCII / Latin-1
fragment of Python's whitespace set, which is also used for the regex class
`\s`). -/
def wsp (c : Char) : Bool :=
  c = ' ' ∨ c = '\t' ∨ c = '\n' ∨ c = '\r' ∨ c = '\x0b' ∨ c = '\x0c' ∨
  c = '\x1c' ∨ c = '\x1d' ∨ c = '\x1e' ∨ c = '\x1f' ∨ c = '\x85' ∨ c = '\xa0'

/-- Python `line.strip()`: drop leading and trailing whitespace. -/
def stripL (s : List Char) : List Char :=
  ((s.dropWhile wsp).reverse.dropWhile wsp).reverse

/-- Line-break characters of Python `str.splitlines` (`\n` and `\r` are
handled separately so that `"\r\n"` counts as a single break; the astral
separators U+2028/U+2029 are included as well). -/
def lineBreak (c : Char) : Bool :=
  c = '\n' ∨ c = '\r' ∨ c = '\x0b' ∨ c = '\x0c' ∨ c = '\x1c' ∨ c = '\x1d' ∨
  c = '\x1e' ∨ c = '\x85' ∨ c = ' ' ∨ c = ' '

/-- Worker for `splitlinesL`; `acc` holds the current line reversed, a
`"\r\n"` pair is one line break.  The fuel makes the recursion structural;
it starts at the text length and every step consumes at least one character,
so the fuel-exhaustion arm is never reached. -/
def splitlinesGo : Nat → List Char → List Char → List (List Char)
  | _, [], acc => if acc = [] then [] else [acc.reverse]
  | 0, s, acc => [acc.reverse ++ s]
  | fuel + 1, c :: rest, acc =>
    if c = '\r' ∧ rest.headD ' ' = '\n' then
      acc.reverse :: splitlinesGo fuel (rest.drop 1) []
    else if lineBreak c then acc.reverse :: splitlinesGo fuel rest []
    else splitlinesGo fuel rest (c :: acc)

/-- Python `content.splitlines()`. -/
def splitlinesL (s : List Char) : List (List Char) :=
  splitlinesGo s.length s []

/-- `startsWithL pat s`: Python `s.startswith(pat)`. -/
def startsWithL : List Char → List Char → Bool
  | [], _ => true
  | _ :: _, [] => false
  | p :: ps, c :: cs => p == c && startsWithL ps cs

/-- Split at the first occurrence of `sep` (nonempty), returning the parts
before and after it: Python `s.split(sep, 1)` when it really splits.
`none` means `sep` does not occur in `s`. -/
def splitOnFirst (sep : List Char) : List Char → Option (List Char × List Char)
  | [] => none
  | c :: cs =>
    if startsWithL sep (c :: cs) then some ([], (c :: cs).drop sep.length)
    else
      match splitOnFirst sep cs with
      | none => none
      | some (a, b) => some (c :: a, b)

/-- Python `sep in s` (substring test) for nonempty `sep`. -/
def containsSub (sep s : List Char) : Bool :=
  (splitOnFirst sep s).isSome

-- ---------------------------------------------------------------------------
-- String constants of the two scripts.
-- ---------------------------------------------------------------------------

def extinfMark : List Char := "#EXTINF:".toList
def extinfTail : List Char := "EXTINF:".toList
def extinfMark7 : List Char := "#EXTINF".toList
def hashMark : List Char := "#".toList
def httpMark : List Char := "http".toList
def refSep : List Char := "|Referer=".toList
def uaSep : List Char := "|User-Agent=".toList
def logoPat : List Char := "tvg-logo=\"".toList
def groupPat : List Char := "group-title=\"".toList
def unknownS : List Char := "Unknown".toList
def naS : List Char := "N/A".toList
def extm3uMark : List Char := "#EXTM3U".toList
def mimeA : List Char := "application/x-mpegurl".toList
def mimeB : List Char := "application/vnd.apple.mpegurl".toList
def liveS : List Char := "Live".toList
def liveNoSegS : List Char := "Live (No segments)".toList
def liveNotM3uS : List Char := "Live (Not M3U8)".toList
def downS : List Char := "Down".toList
def downStatusS : List Char := "Down (Status: ".toList
def segLabel : List Char := " (Segments: ".toList

-- ---------------------------------------------------------------------------
-- Model of `urllib.parse.urlparse`, restricted to the `scheme` and `netloc`
-- components that `parse_m3u` inspects (src/check_m3u.py lines 67-68).
-- Following CPython's `urlsplit`: strip leading C0-control/space characters,
-- remove every tab/CR/LF, split a scheme at the first `:` when the text
-- before it starts with an ASCII letter and uses only scheme characters,
-- and read the netloc after `//` up to the first of `/?#`.  A netloc with
-- unbalanced brackets raises `ValueError` in CPython (modelled as `none`);
-- validation of the *content* of a bracketed IPv6 host is not modelled.
-- ---------------------------------------------------------------------------

def c0OrSpace (c : Char) : Bool := c.toNat ≤ 32

def unsafeURLByte (c : Char) : Bool := c = '\t' ∨ c = '\r' ∨ c = '\n'

def schemeChar (c : Char) : Bool :=
  c.isAlpha || c.isDigit || c = '+' || c = '-' || c = '.'

def netlocEnd (c : Char) : Bool := c = '/' ∨ c = '?' ∨ c = '#'

def urlparseOpt (s : List Char) : Option (List Char × List Char) :=
  let u := (s.dropWhile c0OrSpace).filter (fun c => !unsafeURLByte c)
  let p :=
    match u.findIdx? (· = ':') with
    | some i =>
      if 0 < i ∧ (u.headD ' ').isAlpha ∧ (u.take i).all schemeChar then
        ((u.take i).map Char.toLower, u.drop (i + 1))
      else ([], u)
    | none => ([], u)
  if startsWithL ('/' :: '/' :: []) p.2 then
    let nl := (p.2.drop 2).takeWhile (fun c => !netlocEnd c)
    if ('[' ∈ nl ∧ ']' ∉ nl) ∨ (']' ∈ nl ∧ '[' ∉ nl) then none
    else some (p.1, nl)
  else some (p.1, [])

/-- The validation applied at src/check_m3u.py lines 67-68: the URL must
parse and have a nonempty scheme and netloc. -/
def urlOk (u : List Char) : Bool :=
  match urlparseOpt u with
  | some (sch, nl) => ¬(sch = []) ∧ ¬(nl = [])
  | none => false

-- ---------------------------------------------------------------------------
-- The entry parser of src/check_m3u.py (`parse_m3u`, lines 25-78).
-- ---------------------------------------------------------------------------

/-- Pending metadata accumulator (`current_stream` before a URL line). -/
structure Accum where
  name : Option (List Char)
  logo : Option (List Char)
  group : Option (List Char)
  deriving DecidableEq, Repr

def accEmpty : Accum := ⟨none, none, none⟩

/-- One emitted playlist item (the dict appended to `streams`);
`none` fields model dict keys that are absent or set to Python `None`. -/
structure Stream where
  name : Option (List Char)
  logo : Option (List Char)
  group : Option (List Char)
  url : List Char
  referer : Option (List Char)
  user_agent : Option (List Char)
  deriving DecidableEq, Repr

/-- Splitting of the `#EXTINF` tail at the regex fragment `(.*?)(?:,(.+))?$`:
the lazy first group makes the match split at the first comma that is
followed by at least one character; if there is none, the whole text is the
first group and the optional name group is absent. -/
def splitFirstComma : List Char → List Char × Option (List Char)
  | [] => ([], none)
  | c :: rest =>
    if c = ',' then
      if rest = [] then ([c], none) else ([], some rest)
    else (c :: (splitFirstComma rest).1, (splitFirstComma rest).2)

/-- The `-?` of the regex: skip one leading minus sign if present. -/
def extinfSkipMinus (t : List Char) : List Char :=
  if t.headD ' ' = '-' then t.drop 1 else t

/-- The `\d+\s*(.*?)(?:,(.+))?$` tail of the regex: at least one digit
(greedy, and no backtracking is ever needed because the rest of the pattern
matches every string), greedy whitespace, then the group split. -/
def extinfAfterMinus (t2 : List Char) : Option (List Char × Option (List Char)) :=
  if (t2.headD ' ').isDigit then
    some (splitFirstComma ((t2.dropWhile Char.isDigit).dropWhile wsp))
  else none

/-- Attempt of the regex `#EXTINF:-?\d+\s*(.*?)(?:,(.+))?$` at the start of
`s`: the literal marker (8 characters), the optional minus, then the rest.
Returns (attributes group, optional name group). -/
def extinfTryAt (s : List Char) : Option (List Char × Option (List Char)) :=
  if startsWithL extinfMark s then extinfAfterMinus (extinfSkipMinus (s.drop 8))
  else none

/-- Python `re.search` of that pattern: try every start position from the
left. -/
def extinfSearch : List Char → Option (List Char × Option (List Char))
  | [] => none
  | c :: rest =>
    match extinfTryAt (c :: rest) with
    | some r => some r
    | none => extinfSearch rest

/-- First match of `pat"([^"]*)"` in `s` (the `tvg-logo` / `group-title`
attribute lookups): text after the first occurrence of `pat`, cut at the next
double quote; no closing quote anywhere means no match (a later occurrence of
`pat` would itself provide a quote, so none can match either). -/
def extractQuoted (pat s : List Char) : Option (List Char) :=
  match splitOnFirst pat s with
  | none => none
  | some (_, rest) =>
    if '"' ∈ rest then some (rest.takeWhile (· ≠ '"')) else none

/-- Handling of a `#EXTINF:` line (src/check_m3u.py lines 35-49): when the
regex matches, set name (text of the optional name group, default
`"Unknown"`, then stripped) and the logo/group attributes (default
`"N/A"`); when it does not match, keep the accumulator unchanged. -/
def updateExtinf (acc : Accum) (line : List Char) : Accum :=
  match extinfSearch line with
  | none => acc
  | some (attrs, nm) =>
    { name := some (stripL (nm.getD unknownS)),
      logo := some ((extractQuoted logoPat attrs).getD naS),
      group := some ((extractQuoted groupPat attrs).getD naS) }

/-- URL-line suffix handling (src/check_m3u.py lines 55-64): split off a
`|Referer=` suffix first (one split, at the first occurrence), then split a
`|User-Agent=` suffix off the remaining URL part.  Returns
(url, referer, user agent). -/
def stripRefUA (line : List Char) :
    List Char × Option (List Char) × Option (List Char) :=
  match splitOnFirst refSep line with
  | some (a, b) =>
    match splitOnFirst uaSep a with
    | some (a2, b2) => (a2, some b, some b2)
    | none => (a, some b, none)
  | none =>
    match splitOnFirst uaSep line with
    | some (a2, b2) => (a2, none, some b2)
    | none => (line, none, none)

/-- Handling of a URL candidate line (src/check_m3u.py lines 52-73): extract
suffixes, validate the URL, and either emit a stream or drop the line. -/
def mkStream (acc : Accum) (line : List Char) : Option Stream :=
  if urlOk (stripRefUA line).1 then
    some ⟨acc.name, acc.logo, acc.group, (stripRefUA line).1,
          (stripRefUA line).2.1, (stripRefUA line).2.2⟩
  else none

/-- The line loop of `parse_m3u` (src/check_m3u.py lines 31-76). -/
def parseLines : List (List Char) → Accum → List Stream
  | [], _ => []
  | l :: ls, acc =>
    if stripL l = [] then parseLines ls acc
    else if startsWithL extinfMark (stripL l) then
      parseLines ls (updateExtinf acc (stripL l))
    else if startsWithL hashMark (stripL l) then parseLines ls acc
    else
      match mkStream acc (stripL l) with
      | some st => st :: parseLines ls accEmpty
      | none => parseLines ls accEmpty

/-- `parse_m3u` (src/check_m3u.py lines 25-78). -/
def parse_m3u (content : List Char) : List Stream :=
  parseLines (splitlinesL content) accEmpty

-- ---------------------------------------------------------------------------
-- The probe engine of src/check_m3u.py (`check_url`, lines 80-124).  The
-- HTTP transport is external; its outcome is passed in explicitly.
-- ---------------------------------------------------------------------------

/-- Outcome of the `requests.get` call inside `check_url`: either a raised
`requests.RequestException` with its message, or a response with status
code, `Content-Type` header and body text. -/
inductive HTTPOutcome where
  | failure (err : List Char)
  | success (status : Nat) (contentType : List Char) (body : List Char)
  deriving DecidableEq, Repr

/-- The result dict built by `check_url`. -/
structure CheckResult where
  channel : List Char
  url : List Char
  status : List Char
  group : List Char
  logo : List Char
  error : Option (List Char)
  deriving DecidableEq, Repr

def natChars (n : Nat) : List Char := (Nat.repr n).toList

def toLowerL (s : List Char) : List Char := s.map Char.toLower

/-- `True` for a word character of the regex class `\w` (ASCII fragment). -/
def isWordChar (c : Char) : Bool := c.isAlphanum || c = '_'

/-- Does a match of `\.ts\b` start here?  The boundary after `s` holds when
the next character is missing or not a word character (the `headD ' '`
default is not a word character). -/
def tsAt : List Char → Bool
  | '.' :: 't' :: 's' :: rest => !isWordChar (rest.headD ' ')
  | _ => false

/-- `len(re.findall(r'\.ts\b', content))`.  `findall` scans left to right and
resumes after each three-character match; matches of this pattern can never
overlap (a match starts with `.` while positions 1 and 2 of a match hold
`t` and `s`), so the count equals the number of positions where a match
starts. -/
def countTs : List Char → Nat
  | [] => 0
  | c :: rest => (if tsAt (c :: rest) then 1 else 0) + countTs rest

/-- `check_url` (src/check_m3u.py lines 80-124). -/
def check_url (st : Stream) (oc : HTTPOutcome) : CheckResult :=
  match oc with
  | .failure e =>
    ⟨st.name.getD unknownS, st.url, downS,
     st.group.getD naS, st.logo.getD naS, some e⟩
  | .success code ctRaw body =>
    if code ≠ 200 then
      ⟨st.name.getD unknownS, st.url, downStatusS ++ natChars code ++ [')'],
       st.group.getD naS, st.logo.getD naS, none⟩
    else
      -- `is_m3u8` (lowercased content type in the two playlist MIME types,
      -- or 1KB body prefix starting with `#EXTM3U`) decides between the
      -- Live statuses; when it is false the segment count is 0, so the two
      -- formatted cases below cover the source's single format line.
      if toLowerL ctRaw = mimeA ∨ toLowerL ctRaw = mimeB ∨
          startsWithL extm3uMark (body.take 1024) = true then
        ⟨st.name.getD unknownS, st.url,
         (if 0 < countTs (body.take 1024) then liveS else liveNoSegS) ++
           segLabel ++ natChars (countTs (body.take 1024)) ++ [')'],
         st.group.getD naS, st.logo.getD naS, none⟩
      else
        ⟨st.name.getD unknownS, st.url,
         liveNotM3uS ++ segLabel ++ natChars 0 ++ [')'],
         st.group.getD naS, st.logo.getD naS, none⟩

-- ---------------------------------------------------------------------------
-- The scheduler of src/check_m3u.py (`main`, lines 144-149): one future per
-- stream, results collected in completion order.  The worker count only
-- bounds parallelism; `order` models the completion order reported by
-- `concurrent.futures.as_completed` as a permutation of the input indices.
-- ---------------------------------------------------------------------------

def dfltStream : Stream := ⟨none, none, none, [], none, none⟩

/-- Probe results in input order (one per entry). -/
def probeResults (streams : List Stream) (outcome : Nat → HTTPOutcome) :
    List CheckResult :=
  (List.range streams.length).map
    (fun i => check_url (streams.getD i dfltStream) (outcome i))

/-- Fan-out/fan-in of src/check_m3u.py lines 144-149: the `i`-th completion
yields the probe of the `order i`-th entry. -/
def runAll (streams : List Stream) (outcome : Nat → HTTPOutcome)
    (_concurrency : Nat) (order : List Nat) : List CheckResult :=
  order.filterMap
    (fun i => (streams.get? i).map (fun s => check_url s (outcome i)))

-- ---------------------------------------------------------------------------
-- `main` of src/check_m3u.py (lines 126-169): fetch the playlist, parse,
-- probe, format.  The returned value models the content written to the
-- output file; `none` means no output file is written.
-- ---------------------------------------------------------------------------

inductive FetchOutcome where
  | failure (err : List Char)
  | success (status : Nat) (body : List Char)
  deriving DecidableEq, Repr

def chanLabel : List Char := "Channel: ".toList
def urlLabel : List Char := "\nURL: ".toList
def statusLabel : List Char := "\nStatus: ".toList
def groupLabel : List Char := "\nGroup: ".toList
def logoLabel : List Char := "\nLogo: ".toList
def errorLabel : List Char := "\nError: ".toList
def dashLine : List Char := "\n---".toList
def noneS : List Char := "None".toList

/-- One output block (src/check_m3u.py lines 154-161); `result['error'] or
'None'` replaces both `None` and the empty string by `"None"`. -/
def formatResult (r : CheckResult) : List Char :=
  chanLabel ++ r.channel ++ urlLabel ++ r.url ++ statusLabel ++ r.status ++
  groupLabel ++ r.group ++ logoLabel ++ r.logo ++ errorLabel ++
  (match r.error with
   | some e => if e = [] then noneS else e
   | none => noneS) ++ dashLine

/-- Python `"\n".join(lines)`. -/
def joinNL : List (List Char) → List Char
  | [] => []
  | [x] => x
  | x :: y :: xs => x ++ '\n' :: joinNL (y :: xs)

/-- `main` (src/check_m3u.py lines 126-169): `none` when nothing is written
to the output file (fetch exception, non-200 fetch status, or no streams). -/
def mainRun (fetch : FetchOutcome) (outcome : Nat → HTTPOutcome)
    (workers : Nat) (order : List Nat) : Option (List Char) :=
  match fetch with
  | .failure _ => none
  | .success code body =>
    if code ≠ 200 then none
    else
      let streams := parse_m3u body
      if streams = [] then none
      else some (joinNL ((runAll streams outcome workers order).map formatResult))

-- ---------------------------------------------------------------------------
-- src/hls_checker_pro.py: pair parser (`fetch_playlist`, lines 8-22),
-- referer extraction of `check_stream` (lines 26-29), and the live-playlist
-- re-serialization of `main` (lines 84-92).
-- ---------------------------------------------------------------------------

/-- Line loop of `fetch_playlist`: pair each `http...` line with the last
pending `#EXTINF...` line. -/
def fpAux : List (List Char) → Option (List Char) →
    List (Option (List Char) × List Char)
  | [], _ => []
  | l :: ls, info =>
    if stripL l = [] then fpAux ls info
    else if startsWithL extinfMark7 (stripL l) then fpAux ls (some (stripL l))
    else if startsWithL httpMark (stripL l) then
      (info, stripL l) :: fpAux ls none
    else fpAux ls info

/-- `fetch_playlist` applied to an already-fetched body. -/
def fetch_playlist (body : List Char) : List (Option (List Char) × List Char) :=
  fpAux (splitlinesL body) none

/-- Python `s.split(sep)` for `sep = "|Referer="`, every occurrence.  The
fuel starts at the length of `s`, which is an upper bound for the number of
splits because each one consumes the nine characters of the separator. -/
def splitRefererGo : Nat → List Char → List (List Char)
  | 0, s => [s]
  | n + 1, s =>
    match splitOnFirst refSep s with
    | none => [s]
    | some (a, b) => a :: splitRefererGo n b

def splitReferer (s : List Char) : List (List Char) :=
  splitRefererGo s.length s

/-- The referer extraction of `check_stream` (src/hls_checker_pro.py lines
26-29): when the marker occurs, `url.split("|Referer=")` must yield exactly
two parts for the tuple unpacking to succeed (otherwise a `ValueError`
escapes `check_stream`, modelled as `none`); the referer is stripped. -/
def check_stream_extract (url : List Char) :
    Option (List Char × List Char) :=
  if containsSub refSep url then
    match splitReferer url with
    | [u, r] => some (u, stripL r)
    | _ => none
  else some (url, [])

/-- The URL line written to `live_links.m3u` for one live entry
(src/hls_checker_pro.py lines 89-92). -/
def serializeStreamLine (u ref : List Char) : List Char :=
  if ref = [] then u ++ ['\n'] else u ++ refSep ++ ref ++ ['\n']

/-- The text a live entry contributes to `live_links.m3u` (optional info
line, then the URL line), composed with the referer extraction that produced
the entry's `(url, referer)` pair. -/
def live_links_entry : Option (List Char) × List Char → Option (List Char)
  | (oinfo, url) =>
    (check_stream_extract url).map
      (fun p =>
        (match oinfo with | some info => info ++ ['\n'] | none => []) ++
        serializeStreamLine p.1 p.2)

-- ---------------------------------------------------------------------------
-- Derived predicates used to state the claims.
-- ---------------------------------------------------------------------------

/-- A stripped line that `parse_m3u` treats as a URL candidate: nonempty and
not starting with `#` (src/check_m3u.py line 52). -/
def isURLCandidate (l : List Char) : Bool :=
  ¬(l = []) ∧ ¬(startsWithL hashMark l = true)

/-- A raw playlist line whose stripped form is a URL candidate and, after
removing the `|Referer=` / `|User-Agent=` suffixes, is a syntactically valid
absolute URL (scheme and host both present). -/
def goodLine (l : List Char) : Bool :=
  isURLCandidate (stripL l) && urlOk (stripRefUA (stripL l)).1

/-- The loop state (`current_stream`) pending after scanning a list of
lines, i.e. the metadata the next line sees.  Mirrors `parseLines` branch
for branch (src/check_m3u.py lines 31-76); in particular every URL
candidate line resets the state (lines 70 and 76), whether or not it
emitted an entry. -/
def finalAcc : List (List Char) → Accum → Accum
  | [], acc => acc
  | l :: ls, acc =>
    if stripL l = [] then finalAcc ls acc
    else if startsWithL extinfMark (stripL l) then
      finalAcc ls (updateExtinf acc (stripL l))
    else if startsWithL hashMark (stripL l) then finalAcc ls acc
    else finalAcc ls accEmpty

/-- The entry a URL candidate line emits when no metadata is pending: no
name, logo or group, just the suffix-stripped URL and its suffixes. -/
def bareStream (line : List Char) : Stream :=
  ⟨none, none, none, (stripRefUA line).1, (stripRefUA line).2.1,
   (stripRefUA line).2.2⟩

/-- The text the `|User-Agent=` split removed from the URL line. -/
def uaSuffix (st : Stream) : List Char :=
  match st.user_agent with
  | some u => uaSep ++ u
  | none => []

/-- The text the `|Referer=` split removed from the URL line. -/
def refSuffix (st : Stream) : List Char :=
  match st.referer with
  | some r => refSep ++ r
  | none => []

/-- A well-formed `#EXTINF` line: marker, optional minus sign, duration
digits, one space, attribute text, a comma, and the display name. -/
def extinfLine (sgn : Bool) (ds attrs nm : List Char) : List Char :=
  extinfMark ++ (if sgn then ['-'] else []) ++ ds ++ ' ' :: (attrs ++ ',' :: nm)

def refSepTail : List Char := "Referer=".toList

-- ---------------------------------------------------------------------------
-- Concrete inputs used by the witnesses and counterexamples.
-- ---------------------------------------------------------------------------

def t1 : List Char := "#EXTM3U\nhttp://h/x\nnot a url\nftp://h/y\n#comment\n:::\n".toList
def ct2 : List Char := "application/vnd.apple.mpegurl".toList
def body2 : List Char := "#EXTM3U\n#EXTINF:-1,X\nseg.ts\n".toList
def live1S : List Char := "Live (Segments: 1)".toList
def err3 : List Char := "HTTPSConnectionPool: Read timed out.".toList
def down404S : List Char := "Down (Status: 404)".toList
def stream4a : Stream := ⟨some ['A'], none, none, "http://a/1".toList, none, none⟩
def stream4b : Stream := ⟨some ['B'], none, none, "http://b/2".toList, none, none⟩
def streams4 : List Stream := [stream4a, stream4b]
def oc4 (i : Nat) : HTTPOutcome :=
  if i = 0 then .failure err3 else .success 404 [] []
def ord4 : List Nat := [1, 0]
def cx5content : List Char := "#EXTINF:-1,a,b\nhttp://h/x".toList
def cx5name : List Char := "a,b".toList
def cx5lastComma : List Char := "b".toList
def url0 : List Char := "http://h/x".toList
def ds5 : List Char := "1".toList
def attrs5 : List Char := "tvg-logo=\"l\" group-title=\"G\"".toList
def nm5 : List Char := "Chan1".toList
def ex5name : List Char := "Chan1".toList
def ex5logo : List Char := "l".toList
def ex5group : List Char := "G".toList
def cx6body : List Char := "#EXTINF:-1,C\nhttp://a/x|Referer= http://r".toList
def cx6info : List Char := "#EXTINF:-1,C".toList
def cx6line : List Char := "http://a/x|Referer= http://r".toList
def cx6ser : List Char := "http://a/x|Referer=http://r\n".toList
def info6 : List Char := "#EXTINF:-1,Chan1".toList
def u6 : List Char := "http://a/x.m3u8".toList
def r6 : List Char := "http://r".toList
def t7bL1 : List Char := "#EXTINF:-1,C".toList
def t7bL2 : List Char := "http://h/a".toList
def t7bL3 : List Char := "#comment".toList
def t7bU : List Char := "http://h/b".toList
def t7bL5 : List Char := "#EXTINF:-1,D".toList
def t7bL6 : List Char := "http://h/c".toList
def t7b : List Char :=
  "#EXTINF:-1,C\nhttp://h/a\n#comment\nhttp://h/b\n#EXTINF:-1,D\nhttp://h/c\n".toList
def body8 : List Char := "#EXTINF:-1,C\nhttp://h/x\n".toList
def t9 : List Char := "http://x|User-Agent=UA|Referer=R\nhttp://y|Referer=R|User-Agent=UA\n".toList

-- ===========================================================================
-- General lemmas about the string helpers.
-- ===========================================================================

theorem startsWith_append_self (p r : List Char) :
    startsWithL p (p ++ r) = true := by
  induction p with
  | nil => rfl
  | cons c cs ih => simp [startsWithL, ih]

theorem startsWith_extend {p a : List Char} (b : List Char)
    (h : startsWithL p a = true) : startsWithL p (a ++ b) = true := by
  induction p generalizing a with
  | nil => rfl
  | cons c cs ih =>
    cases a with
    | nil => simp [startsWithL] at h
    | cons d ds =>
      simp only [startsWithL, List.cons_append, Bool.and_eq_true,
        beq_iff_eq] at h ⊢
      exact ⟨h.1, ih h.2⟩

theorem startsWith_headD {p : Char} {ps s : List Char} (d : Char)
    (h : startsWithL (p :: ps) s = true) : s.headD d = p := by
  cases s with
  | nil => simp [startsWithL] at h
  | cons c cs =>
    simp only [startsWithL, Bool.and_eq_true, beq_iff_eq] at h
    simpa using h.1.symm

theorem startsWith_ne_nil {p : Char} {ps s : List Char}
    (h : startsWithL (p :: ps) s = true) : s ≠ [] := by
  cases s with
  | nil => simp [startsWithL] at h
  | cons c cs => simp

-- ===========================================================================
-- C2, C3: the probe engine.
-- ===========================================================================

/-- C2: a probe whose transport succeeds with HTTP 200 and whose response is
classified as a playlist (known playlist MIME type after lowercasing, or
body prefix starting with `#EXTM3U`) reports `Live` with the `.ts` token
count of the first 1024 body characters when that count is positive, and
`Live (No segments)` when it is zero; no error detail is set. -/
theorem check_url_playlist_live (st : Stream) (ct body : List Char)
    (hpl : toLowerL ct = mimeA ∨ toLowerL ct = mimeB ∨
           startsWithL extm3uMark (body.take 1024) = true) :
    (check_url st (.success 200 ct body)).status =
      (if 0 < countTs (body.take 1024) then liveS else liveNoSegS) ++
        segLabel ++ natChars (countTs (body.take 1024)) ++ [')'] ∧
    (check_url st (.success 200 ct body)).error = none := by
  simp only [check_url]
  rw [if_neg (by decide), if_pos hpl]
  exact ⟨rfl, rfl⟩

/-- Witness for C2 at the spec's concrete example: HTTP 200,
content type `application/vnd.apple.mpegurl`, body
`"#EXTM3U\n#EXTINF:-1,X\nseg.ts\n"` yields `Live (Segments: 1)`. -/
theorem check_url_playlist_live_witness :
    (check_url dfltStream (.success 200 ct2 body2)).status = live1S ∧
    (check_url dfltStream (.success 200 ct2 body2)).error = none := by
  obtain ⟨h1, h2⟩ := check_url_playlist_live dfltStream ct2 body2
    (Or.inr (Or.inl (by decide)))
  exact ⟨h1.trans (by decide), h2⟩

/-- C3: `check_url` absorbs every transport outcome.  A raised transport
exception becomes a result with status exactly `"Down"` (no HTTP status
embedded) and the exception text as error detail; a response with a status
code other than 200 becomes `"Down (Status: <code>)"` with no error
detail. -/
theorem check_url_down (st : Stream) (e : List Char) (code : Nat)
    (ct body : List Char) (hc : code ≠ 200) :
    (check_url st (.failure e)).status = downS ∧
    (check_url st (.failure e)).error = some e ∧
    (check_url st (.success code ct body)).status =
      downStatusS ++ natChars code ++ [')'] ∧
    (check_url st (.success code ct body)).error = none := by
  refine ⟨rfl, rfl, ?_, ?_⟩ <;>
    · simp only [check_url]
      rw [if_pos hc]

/-- Witness for C3: a timeout exception gives `Down` with the message as
error detail; an HTTP 404 gives `Down (Status: 404)` with no error. -/
theorem check_url_down_witness :
    (check_url dfltStream (.failure err3)).status = downS ∧
    (check_url dfltStream (.failure err3)).error = some err3 ∧
    (check_url dfltStream (.success 404 [] [])).status = down404S ∧
    (check_url dfltStream (.success 404 [] [])).error = none := by
  obtain ⟨h1, h2, h3, h4⟩ :=
    check_url_down dfltStream err3 404 [] [] (by decide)
  exact ⟨h1, h2, h3.trans (by decide), h4⟩

-- ===========================================================================
-- C8: fatal fetch failure writes no output.
-- ===========================================================================

/-- C8: when fetching the playlist itself fails (a transport exception or a
non-200 HTTP status on the playlist URL), `main` aborts and the output file
is never written. -/
theorem mainRun_no_output (fetch : FetchOutcome) (outcome : Nat → HTTPOutcome)
    (workers : Nat) (order : List Nat)
    (h : ∀ c b, fetch = FetchOutcome.success c b → c ≠ 200) :
    mainRun fetch outcome workers order = none := by
  cases fetch with
  | failure e => rfl
  | success c b =>
    simp only [mainRun]
    rw [if_pos (h c b rfl)]

/-- Witness for C8: a fetch exception and an HTTP 404 playlist fetch both
produce no output, even over a playlist body that would parse. -/
theorem mainRun_no_output_witness :
    mainRun (.failure err3) oc4 10 [0] = none ∧
    mainRun (.success 404 body8) oc4 10 [0] = none := by
  constructor
  · exact mainRun_no_output _ oc4 10 [0] (by intro c b hcb; cases hcb)
  · exact mainRun_no_output _ oc4 10 [0]
      (by intro c b hcb; cases hcb; decide)

-- ===========================================================================
-- C4: the scheduler returns exactly one result per entry.
-- ===========================================================================

theorem runAll_eq_map (streams : List Stream) (outcome : Nat → HTTPOutcome)
    (conc : Nat) :
    ∀ l : List Nat, (∀ i ∈ l, i < streams.length) →
      runAll streams outcome conc l =
        l.map (fun i => check_url (streams.getD i dfltStream) (outcome i)) := by
  intro l
  induction l with
  | nil => intro _; rfl
  | cons i l ih =>
    intro h
    have hi : i < streams.length := h i (List.mem_cons_self i l)
    have hx : streams.get? i = some (streams.getD i dfltStream) := by
      rw [List.getD_eq_getElem?_getD, ← List.get?_eq_getElem?,
        List.get?_eq_get hi]
      rfl
    have ht := ih (fun j hj => h j (List.mem_cons_of_mem i hj))
    simp only [runAll] at ht ⊢
    rw [List.filterMap_cons, hx, ht]
    rfl

/-- C4: for any entry sequence, any worker count, and any completion order
(a permutation of the input indices, as produced by `as_completed` over the
one-future-per-entry dict), `runAll` returns exactly one result per input
entry: as many results as entries, and, as a multiset, exactly the probe
results of the entries. -/
theorem runAll_one_result_per_entry (streams : List Stream)
    (outcome : Nat → HTTPOutcome) (concurrency : Nat) (order : List Nat)
    (h : order.Perm (List.range streams.length)) :
    (runAll streams outcome concurrency order).length = streams.length ∧
    (runAll streams outcome concurrency order).Perm
      (probeResults streams outcome) := by
  have hperm : (runAll streams outcome concurrency order).Perm
      (runAll streams outcome concurrency (List.range streams.length)) :=
    List.Perm.filterMap _ h
  have heq : runAll streams outcome concurrency (List.range streams.length) =
      probeResults streams outcome := by
    rw [runAll_eq_map streams outcome concurrency (List.range streams.length)
      (fun i hi => List.mem_range.mp hi)]
    rfl
  rw [heq] at hperm
  refine ⟨?_, hperm⟩
  rw [hperm.length_eq]
  simp [probeResults]

/-- Witness for C4: two entries, worker bound 1, completion order reversed:
both results are delivered, one per entry. -/
theorem runAll_one_result_per_entry_witness :
    (runAll streams4 oc4 1 ord4).length = streams4.length ∧
    (runAll streams4 oc4 1 ord4).Perm (probeResults streams4 oc4) :=
  runAll_one_result_per_entry streams4 oc4 1 ord4 (by decide)

-- ===========================================================================
-- C9: emitted URLs are free of the `|Referer=` / `|User-Agent=` markers.
-- ===========================================================================

theorem startsWith_take_drop {p s : List Char} (h : startsWithL p s = true) :
    s = p ++ s.drop p.length := by
  induction p generalizing s with
  | nil => simp
  | cons c cs ih =>
    cases s with
    | nil => simp [startsWithL] at h
    | cons d ds =>
      simp only [startsWithL, Bool.and_eq_true, beq_iff_eq] at h
      obtain ⟨h1, h2⟩ := h
      subst h1
      simpa [List.cons_append] using congrArg (List.cons c) (ih h2)

theorem splitOnFirst_some {sep s a b : List Char}
    (h : splitOnFirst sep s = some (a, b)) :
    s = a ++ sep ++ b ∧ splitOnFirst sep a = none := by
  induction s generalizing a with
  | nil => simp [splitOnFirst] at h
  | cons c cs ih =>
    rw [splitOnFirst] at h
    by_cases hs : startsWithL sep (c :: cs) = true
    · rw [if_pos hs] at h
      obtain ⟨ha, hb⟩ := Prod.mk.injEq .. ▸ Option.some.inj h
      subst ha
      subst hb
      refine ⟨?_, rfl⟩
      simpa using startsWith_take_drop hs
    · rw [if_neg hs] at h
      cases hrec : splitOnFirst sep cs with
      | none => rw [hrec] at h; cases h
      | some p =>
        obtain ⟨a', b'⟩ := p
        rw [hrec] at h
        obtain ⟨ha, hb⟩ := Prod.mk.injEq .. ▸ Option.some.inj h
        subst hb
        obtain ⟨hcs, hnone⟩ := ih hrec
        subst ha
        constructor
        · simpa [List.cons_append] using congrArg (List.cons c) hcs
        · rw [splitOnFirst]
          have hsw : ¬ startsWithL sep (c :: a') = true := by
            intro hsw
            apply hs
            have := startsWith_extend (sep ++ b') hsw
            simpa [hcs, List.append_assoc] using this
          rw [if_neg hsw, hnone]

theorem containsSub_mono {sep a : List Char} (b : List Char)
    (h : containsSub sep a = true) : containsSub sep (a ++ b) = true := by
  induction a with
  | nil => simp [containsSub, splitOnFirst] at h
  | cons c cs ih =>
    simp only [containsSub, splitOnFirst, List.cons_append, List.append_eq] at h ⊢
    by_cases h2 : startsWithL sep (c :: (cs ++ b)) = true
    · rw [if_pos h2]; rfl
    · rw [if_neg h2]
      by_cases h1 : startsWithL sep (c :: cs) = true
      · exact absurd (by simpa using startsWith_extend b h1) h2
      · rw [if_neg h1] at h
        cases hrec : splitOnFirst sep cs with
        | none => rw [hrec] at h; simp at h
        | some p =>
          have := ih (by rw [containsSub, hrec]; rfl)
          rw [containsSub] at this
          cases hrec2 : splitOnFirst sep (cs ++ b) with
          | none => rw [hrec2] at this; simp at this
          | some q =>
            obtain ⟨qa, qb⟩ := q
            rfl

/-- The three structural facts about the URL-line suffix handling: the final
URL contains neither marker, and the line is exactly the URL followed by the
removed `|User-Agent=` part followed by the removed `|Referer=` part. -/
theorem stripRefUA_spec (line : List Char) :
    containsSub refSep (stripRefUA line).1 = false ∧
    containsSub uaSep (stripRefUA line).1 = false ∧
    line = (stripRefUA line).1 ++
      (match (stripRefUA line).2.2 with
       | some u => uaSep ++ u
       | none => []) ++
      (match (stripRefUA line).2.1 with
       | some r => refSep ++ r
       | none => []) := by
  cases hr : splitOnFirst refSep line with
  | some p =>
    obtain ⟨a, b⟩ := p
    obtain ⟨hline, hanone⟩ := splitOnFirst_some hr
    cases hu : splitOnFirst uaSep a with
    | some q =>
      obtain ⟨a2, b2⟩ := q
      obtain ⟨ha, ha2none⟩ := splitOnFirst_some hu
      simp only [stripRefUA, hr, hu]
      refine ⟨?_, ?_, ?_⟩
      · cases hc : containsSub refSep a2 with
        | false => rfl
        | true =>
          exfalso
          have := containsSub_mono (uaSep ++ b2) hc
          rw [List.append_assoc] at ha
          rw [← ha] at this
          rw [containsSub, hanone] at this
          cases this
      · rw [containsSub, ha2none]; rfl
      · rw [hline, ha]
        simp [List.append_assoc]
    | none =>
      simp only [stripRefUA, hr, hu]
      refine ⟨?_, ?_, ?_⟩
      · rw [containsSub, hanone]; rfl
      · rw [containsSub, hu]; rfl
      · simpa using hline
  | none =>
    cases hu : splitOnFirst uaSep line with
    | some q =>
      obtain ⟨a2, b2⟩ := q
      obtain ⟨hline, ha2none⟩ := splitOnFirst_some hu
      simp only [stripRefUA, hr, hu]
      refine ⟨?_, ?_, ?_⟩
      · cases hc : containsSub refSep a2 with
        | false => rfl
        | true =>
          exfalso
          have := containsSub_mono (uaSep ++ b2) hc
          rw [List.append_assoc] at hline
          rw [← hline] at this
          rw [containsSub, hr] at this
          cases this
      · rw [containsSub, ha2none]; rfl
      · rw [List.append_assoc] at hline
        simpa using hline
    | none =>
      simp only [stripRefUA, hr, hu]
      exact ⟨by rw [containsSub, hr]; rfl, by rw [containsSub, hu]; rfl, by simp⟩

theorem parseLines_mem {lines : List (List Char)} {acc : Accum} {st : Stream}
    (h : st ∈ parseLines lines acc) :
    ∃ l ∈ lines, stripL l = st.url ++ uaSuffix st ++ refSuffix st ∧
      containsSub refSep st.url = false ∧ containsSub uaSep st.url = false := by
  induction lines generalizing acc with
  | nil => simp [parseLines] at h
  | cons l ls ih =>
    rw [parseLines] at h
    by_cases h1 : stripL l = []
    · rw [if_pos h1] at h
      obtain ⟨l', hl', hp⟩ := ih h
      exact ⟨l', List.mem_cons_of_mem l hl', hp⟩
    · rw [if_neg h1] at h
      by_cases h2 : startsWithL extinfMark (stripL l) = true
      · rw [if_pos h2] at h
        obtain ⟨l', hl', hp⟩ := ih h
        exact ⟨l', List.mem_cons_of_mem l hl', hp⟩
      · rw [if_neg h2] at h
        by_cases h3 : startsWithL hashMark (stripL l) = true
        · rw [if_pos h3] at h
          obtain ⟨l', hl', hp⟩ := ih h
          exact ⟨l', List.mem_cons_of_mem l hl', hp⟩
        · rw [if_neg h3] at h
          cases hmk : mkStream acc (stripL l) with
          | none =>
            rw [hmk] at h
            obtain ⟨l', hl', hp⟩ := ih h
            exact ⟨l', List.mem_cons_of_mem l hl', hp⟩
          | some st' =>
            rw [hmk] at h
            rcases List.mem_cons.mp h with heq | htl
            · subst heq
              rw [mkStream] at hmk
              by_cases hok : urlOk (stripRefUA (stripL l)).1 = true
              · rw [if_pos hok] at hmk
                obtain ⟨hs1, hs2, hs3⟩ := stripRefUA_spec (stripL l)
                refine ⟨l, List.mem_cons_self l ls, ?_, ?_, ?_⟩ <;>
                  · rw [← Option.some.inj hmk]
                    first
                      | (show stripL l = _; exact hs3)
                      | exact hs1
                      | exact hs2
              · rw [if_neg hok] at hmk; cases hmk
            · obtain ⟨l', hl', hp⟩ := ih htl
              exact ⟨l', List.mem_cons_of_mem l hl', hp⟩

/-- C9: every `StreamEntry` emitted by `parse_m3u` has a URL containing
neither the literal `|Referer=` nor the literal `|User-Agent=` marker; the
removed suffixes are stored in the `referer` / `user_agent` fields, so the
stripped source line is exactly the URL followed by the removed
`|User-Agent=` text followed by the removed `|Referer=` text. -/
theorem parse_url_no_markers (content : List Char) (st : Stream)
    (hst : st ∈ parse_m3u content) :
    containsSub refSep st.url = false ∧ containsSub uaSep st.url = false ∧
    ∃ l ∈ splitlinesL content,
      stripL l = st.url ++ uaSuffix st ++ refSuffix st := by
  obtain ⟨l, hl, hrec, h1, h2⟩ := parseLines_mem hst
  exact ⟨h1, h2, l, hl, hrec⟩

/-- Witness for C9 on a playlist whose URL lines carry both suffixes in both
orders. -/
theorem parse_url_no_markers_witness :
    containsSub refSep ((parse_m3u t9).headD dfltStream).url = false ∧
    containsSub uaSep ((parse_m3u t9).headD dfltStream).url = false ∧
    ∃ l ∈ splitlinesL t9,
      stripL l = ((parse_m3u t9).headD dfltStream).url ++
        uaSuffix ((parse_m3u t9).headD dfltStream) ++
        refSuffix ((parse_m3u t9).headD dfltStream) :=
  parse_url_no_markers t9 ((parse_m3u t9).headD dfltStream) (by decide)

-- ===========================================================================
-- C1, C10: entry count and order of `parse_m3u`.
-- ===========================================================================

theorem extinf_implies_hash {s : List Char}
    (h : startsWithL extinfMark s = true) : startsWithL hashMark s = true := by
  have hm : extinfMark = '#' :: extinfTail := rfl
  have hh : hashMark = '#' :: [] := rfl
  rw [hm] at h
  rw [hh]
  cases s with
  | nil => simp [startsWithL] at h
  | cons d ds =>
    simp only [startsWithL, Bool.and_eq_true, beq_iff_eq] at h ⊢
    exact ⟨h.1, trivial⟩

/-- The URLs emitted by the parser loop are exactly the suffix-stripped good
lines, in input order, for every starting accumulator. -/
theorem parse_urls (lines : List (List Char)) :
    ∀ acc, (parseLines lines acc).map Stream.url =
      (lines.filter goodLine).map (fun l => (stripRefUA (stripL l)).1) := by
  induction lines with
  | nil => intro acc; rfl
  | cons l ls ih =>
    intro acc
    rw [parseLines, List.filter_cons]
    by_cases h1 : stripL l = []
    · have hg : goodLine l = false := by
        simp [goodLine, isURLCandidate, h1]
      rw [if_pos h1, hg, if_neg (by simp)]
      exact ih acc
    · rw [if_neg h1]
      by_cases h2 : startsWithL extinfMark (stripL l) = true
      · have hg : goodLine l = false := by
          simp [goodLine, isURLCandidate, extinf_implies_hash h2]
        rw [if_pos h2, hg, if_neg (by simp)]
        exact ih _
      · rw [if_neg h2]
        by_cases h3 : startsWithL hashMark (stripL l) = true
        · have hg : goodLine l = false := by
            simp [goodLine, isURLCandidate, h3]
          rw [if_pos h3, hg, if_neg (by simp)]
          exact ih acc
        · rw [if_neg h3]
          have hcand : isURLCandidate (stripL l) = true := by
            simp [isURLCandidate, h1, h3]
          cases hok : urlOk (stripRefUA (stripL l)).1 with
          | true =>
            have hg : goodLine l = true := by
              simp [goodLine, hcand, hok]
            rw [mkStream, if_pos hok, hg, if_pos (by simp)]
            simp only [List.map_cons]
            rw [ih accEmpty]
          | false =>
            have hg : goodLine l = false := by
              simp [goodLine, hok]
            rw [mkStream, if_neg (by simp [hok]), hg, if_neg (by simp)]
            exact ih accEmpty

/-- C10: `parse_m3u` preserves input order: the sequence of emitted entry
URLs equals, position by position, the sequence of syntactically valid URL
lines of the text (suffix-stripped), so the i-th entry comes from the i-th
valid URL line. -/
theorem parse_preserves_order (content : List Char) :
    (parse_m3u content).map Stream.url =
      ((splitlinesL content).filter goodLine).map
        (fun l => (stripRefUA (stripL l)).1) :=
  parse_urls (splitlinesL content) accEmpty

/-- C1: `parse_m3u` returns exactly one entry per syntactically valid URL
line (so each of the M invalid URL lines contributes zero entries), and
every emitted entry carries a URL that passes the scheme-and-host
validation. -/
theorem parse_count_valid (content : List Char) :
    (parse_m3u content).length =
      ((splitlinesL content).filter goodLine).length ∧
    ∀ st ∈ parse_m3u content, urlOk st.url = true := by
  have h := parse_urls (splitlinesL content) accEmpty
  constructor
  · have h2 := congrArg List.length h
    simpa using h2
  · intro st hst
    have hmem : st.url ∈ (parse_m3u content).map Stream.url :=
      List.mem_map_of_mem Stream.url hst
    rw [show (parse_m3u content).map Stream.url =
      ((splitlinesL content).filter goodLine).map
        (fun l => (stripRefUA (stripL l)).1) from h] at hmem
    obtain ⟨l, hl, hurl⟩ := List.mem_map.mp hmem
    have hg := List.of_mem_filter hl
    rw [goodLine, Bool.and_eq_true] at hg
    rw [← hurl]
    exact hg.2

/-- Witness for C1 on a playlist with two valid URL lines (`http://h/x`,
`ftp://h/y`) and two invalid ones (`not a url`, `:::`), plus comment
lines. -/
theorem parse_count_valid_witness :
    (parse_m3u t1).length = ((splitlinesL t1).filter goodLine).length ∧
    (parse_m3u t1).length = 2 ∧
    urlOk ((parse_m3u t1).headD dfltStream).url = true := by
  obtain ⟨h1, h2⟩ := parse_count_valid t1
  exact ⟨h1, by decide, h2 ((parse_m3u t1).headD dfltStream) (by decide)⟩

-- ===========================================================================
-- C7: URL lines with no preceding metadata line.
-- ===========================================================================

theorem check_url_fields (st : Stream) (oc : HTTPOutcome) :
    (check_url st oc).channel = st.name.getD unknownS ∧
    (check_url st oc).group = st.group.getD naS ∧
    (check_url st oc).logo = st.logo.getD naS := by
  cases oc with
  | failure e => exact ⟨rfl, rfl, rfl⟩
  | success c ct b =>
    simp only [check_url]
    by_cases h : c ≠ 200
    · rw [if_pos h]; exact ⟨rfl, rfl, rfl⟩
    · rw [if_neg h]
      by_cases h2 : toLowerL ct = mimeA ∨ toLowerL ct = mimeB ∨
          startsWithL extm3uMark (b.take 1024) = true
      · rw [if_pos h2]; exact ⟨rfl, rfl, rfl⟩
      · rw [if_neg h2]; exact ⟨rfl, rfl, rfl⟩

theorem parseLines_append (xs : List (List Char)) :
    ∀ (ys : List (List Char)) (acc : Accum),
      parseLines (xs ++ ys) acc =
        parseLines xs acc ++ parseLines ys (finalAcc xs acc) := by
  induction xs with
  | nil => intro ys acc; rfl
  | cons l ls ih =>
    intro ys acc
    simp only [List.cons_append, List.append_eq, parseLines, finalAcc]
    split_ifs with h1 h2 h3
    · exact ih ys acc
    · exact ih ys _
    · exact ih ys acc
    · cases hmk : mkStream acc (stripL l) with
      | none => exact ih ys accEmpty
      | some st => rw [ih ys accEmpty]; rfl

theorem finalAcc_append (xs : List (List Char)) :
    ∀ (ys : List (List Char)) (acc : Accum),
      finalAcc (xs ++ ys) acc = finalAcc ys (finalAcc xs acc) := by
  induction xs with
  | nil => intro ys acc; rfl
  | cons l ls ih =>
    intro ys acc
    simp only [List.cons_append, finalAcc]
    split_ifs <;> apply ih

/-- A URL-candidate line always resets the pending metadata
(src/check_m3u.py lines 70 and 76), whatever was accumulated before. -/
theorem finalAcc_candidate (p : List Char) (acc : Accum)
    (hp : isURLCandidate (stripL p) = true) : finalAcc [p] acc = accEmpty := by
  have h0 : ¬(stripL p = []) ∧ ¬(startsWithL hashMark (stripL p) = true) := by
    simpa [isURLCandidate] using hp
  have h2 : ¬(startsWithL extinfMark (stripL p) = true) :=
    fun hx => h0.2 (extinf_implies_hash hx)
  rw [finalAcc, if_neg h0.1, if_neg h2, if_neg h0.2]
  rfl

theorem finalAcc_no_extinf (mid : List (List Char))
    (hmid : ∀ l ∈ mid, startsWithL extinfMark (stripL l) = false) :
    finalAcc mid accEmpty = accEmpty := by
  induction mid with
  | nil => rfl
  | cons l ls ih =>
    have hl := hmid l (List.mem_cons_self l ls)
    have ih2 := ih (fun l2 h => hmid l2 (List.mem_cons_of_mem l h))
    rw [finalAcc]
    split_ifs with h1 h2 h3
    · exact ih2
    · exact absurd h2 (by simp [hl])
    · exact ih2
    · exact ih2

/-- A valid URL line reached with empty pending metadata emits exactly the
bare entry. -/
theorem parseLines_good_cons (u : List Char) (post : List (List Char))
    (hu : goodLine u = true) :
    parseLines (u :: post) accEmpty =
      bareStream (stripL u) :: parseLines post accEmpty := by
  rw [goodLine, Bool.and_eq_true] at hu
  obtain ⟨hc, hok⟩ := hu
  have h0 : ¬(stripL u = []) ∧ ¬(startsWithL hashMark (stripL u) = true) := by
    simpa [isURLCandidate] using hc
  have h2 : ¬(startsWithL extinfMark (stripL u) = true) :=
    fun hx => h0.2 (extinf_implies_hash hx)
  rw [parseLines, if_neg h0.1, if_neg h2, if_neg h0.2, mkStream, if_pos hok]
  rfl

/-- C7: a syntactically valid URL line with no pending metadata still
produces an entry, and that entry has no name, logo or group, so the probe
engine reports it under the defaults `Unknown` / `N/A` / `N/A`.  "No
pending metadata" means no `#EXTINF:` line since the last URL-candidate
line: the playlist's lines split as `pre` (empty, or anything ending in a
URL-candidate line, which always resets the accumulator), then
`#EXTINF:`-free lines `mid`, then the URL line `u`, then anything;
metadata lines may occur freely inside `pre` and `post`. -/
theorem parse_no_metadata_defaults (content : List Char)
    (pre mid post : List (List Char)) (u : List Char)
    (hsplit : splitlinesL content = pre ++ (mid ++ u :: post))
    (hpre : pre = [] ∨ ∃ pre0 p, pre = pre0 ++ [p] ∧
      isURLCandidate (stripL p) = true)
    (hmid : ∀ l ∈ mid, startsWithL extinfMark (stripL l) = false)
    (hu : goodLine u = true) (oc : HTTPOutcome) :
    parse_m3u content =
      parseLines pre accEmpty ++ (parseLines mid accEmpty ++
        bareStream (stripL u) :: parseLines post accEmpty) ∧
    (bareStream (stripL u)).name = none ∧
    (bareStream (stripL u)).logo = none ∧
    (bareStream (stripL u)).group = none ∧
    (check_url (bareStream (stripL u)) oc).channel = unknownS ∧
    (check_url (bareStream (stripL u)) oc).group = naS ∧
    (check_url (bareStream (stripL u)) oc).logo = naS := by
  have hfa : finalAcc pre accEmpty = accEmpty := by
    rcases hpre with rfl | ⟨pre0, p, rfl, hp⟩
    · rfl
    · rw [finalAcc_append pre0 [p] accEmpty]
      exact finalAcc_candidate p _ hp
  have hmain : parse_m3u content =
      parseLines pre accEmpty ++ (parseLines mid accEmpty ++
        bareStream (stripL u) :: parseLines post accEmpty) := by
    rw [parse_m3u, hsplit, parseLines_append pre (mid ++ u :: post) accEmpty,
      hfa, parseLines_append mid (u :: post) accEmpty,
      finalAcc_no_extinf mid hmid, parseLines_good_cons u post hu]
  obtain ⟨f1, f2, f3⟩ := check_url_fields (bareStream (stripL u)) oc
  refine ⟨hmain, rfl, rfl, rfl, ?_, ?_, ?_⟩
  · rw [f1]; rfl
  · rw [f2]; rfl
  · rw [f3]; rfl

/-- Witness for C7 on a playlist that does contain metadata lines: the bare
URL line `http://h/b` comes after a consumed metadata+URL pair and a
comment line, and before another metadata line, and its entry still gets
the defaults. -/
theorem parse_no_metadata_defaults_witness :
    parse_m3u t7b =
      parseLines [t7bL1, t7bL2] accEmpty ++ (parseLines [t7bL3] accEmpty ++
        bareStream (stripL t7bU) :: parseLines [t7bL5, t7bL6] accEmpty) ∧
    (bareStream (stripL t7bU)).name = none ∧
    (bareStream (stripL t7bU)).logo = none ∧
    (bareStream (stripL t7bU)).group = none ∧
    (check_url (bareStream (stripL t7bU)) (.failure err3)).channel
      = unknownS ∧
    (check_url (bareStream (stripL t7bU)) (.failure err3)).group = naS ∧
    (check_url (bareStream (stripL t7bU)) (.failure err3)).logo = naS :=
  parse_no_metadata_defaults t7b [t7bL1, t7bL2] [t7bL3] [t7bL5, t7bL6] t7bU
    (by decide) (Or.inr ⟨[t7bL1], t7bL2, by decide, by decide⟩) (by decide)
    (by decide) (.failure err3)

-- ===========================================================================
-- Reduction and decomposition lemmas for `splitlinesL`.
-- ===========================================================================

theorem splitlinesGo_nil (f : Nat) (acc : List Char) :
    splitlinesGo f [] acc = if acc = [] then [] else [acc.reverse] := by
  cases f <;> rfl

theorem splitlinesGo_succ_cons (f : Nat) (c : Char) (rest acc : List Char) :
    splitlinesGo (f + 1) (c :: rest) acc =
      if c = '\r' ∧ rest.headD ' ' = '\n' then
        acc.reverse :: splitlinesGo f (rest.drop 1) []
      else if lineBreak c then acc.reverse :: splitlinesGo f rest []
      else splitlinesGo f rest (c :: acc) := rfl

theorem splitlinesGo_fuel {f : Nat} :
    ∀ {g : Nat} {s acc : List Char}, s.length ≤ f → s.length ≤ g →
      splitlinesGo f s acc = splitlinesGo g s acc := by
  induction f with
  | zero =>
    intro g s acc h1 _
    have hs : s = [] := List.eq_nil_of_length_eq_zero (Nat.le_zero.mp h1)
    subst hs
    rw [splitlinesGo_nil, splitlinesGo_nil]
  | succ f ih =>
    intro g s acc h1 h2
    cases s with
    | nil => rw [splitlinesGo_nil, splitlinesGo_nil]
    | cons c rest =>
      obtain ⟨g2, rfl⟩ : ∃ g2, g = g2 + 1 := by
        cases g with
        | zero => simp at h2
        | succ g2 => exact ⟨g2, rfl⟩
      rw [splitlinesGo_succ_cons, splitlinesGo_succ_cons]
      simp only [List.length_cons, Nat.succ_le_succ_iff] at h1 h2
      by_cases hc1 : c = '\r' ∧ rest.headD ' ' = '\n'
      · rw [if_pos hc1, if_pos hc1]
        have hd : (rest.drop 1).length ≤ f := by
          simp only [List.length_drop]; omega
        have hd2 : (rest.drop 1).length ≤ g2 := by
          simp only [List.length_drop]; omega
        rw [ih hd hd2]
      · rw [if_neg hc1, if_neg hc1]
        by_cases hc2 : lineBreak c = true
        · rw [if_pos hc2, if_pos hc2, ih h1 h2]
        · rw [if_neg hc2, if_neg hc2, ih h1 h2]

theorem splitlinesGo_append :
    ∀ (xs : List Char), (∀ c ∈ xs, lineBreak c = false) →
      ∀ (ys acc : List Char) (f : Nat), (xs ++ '\n' :: ys).length ≤ f →
        splitlinesGo f (xs ++ '\n' :: ys) acc =
          (acc.reverse ++ xs) :: splitlinesGo ys.length ys [] := by
  intro xs
  induction xs with
  | nil =>
    intro _ ys acc f hf
    simp only [List.nil_append, List.length_cons] at hf ⊢
    obtain ⟨f2, rfl⟩ : ∃ f2, f = f2 + 1 := by
      cases f with
      | zero => omega
      | succ f2 => exact ⟨f2, rfl⟩
    rw [splitlinesGo_succ_cons, if_neg (by simp), if_pos (by decide)]
    rw [splitlinesGo_fuel (by omega) (Nat.le_refl ys.length)]
    simp
  | cons c xs ih =>
    intro h ys acc f hf
    have hc := h c (List.mem_cons_self c xs)
    have hcr : c ≠ '\r' := by
      intro e; subst e; exact absurd hc (by decide)
    simp only [List.cons_append, List.length_cons] at hf ⊢
    obtain ⟨f2, rfl⟩ : ∃ f2, f = f2 + 1 := by
      cases f with
      | zero => omega
      | succ f2 => exact ⟨f2, rfl⟩
    rw [splitlinesGo_succ_cons, if_neg (fun hx => hcr hx.1),
      if_neg (by rw [hc]; simp)]
    rw [ih (fun d hd => h d (List.mem_cons_of_mem c hd)) ys (c :: acc) f2
      (by omega)]
    simp [List.append_assoc]

theorem splitlinesGo_nb :
    ∀ (xs : List Char), (∀ c ∈ xs, lineBreak c = false) →
      ∀ (acc : List Char) (f : Nat), xs.length ≤ f →
        splitlinesGo f xs acc =
          if acc.reverse ++ xs = [] then [] else [acc.reverse ++ xs] := by
  intro xs
  induction xs with
  | nil =>
    intro _ acc f _
    rw [splitlinesGo_nil]
    by_cases ha : acc = []
    · subst ha; simp
    · rw [if_neg ha, if_neg (by simpa using ha)]
      simp
  | cons c xs ih =>
    intro h acc f hf
    have hc := h c (List.mem_cons_self c xs)
    have hcr : c ≠ '\r' := by
      intro e; subst e; exact absurd hc (by decide)
    simp only [List.length_cons] at hf
    obtain ⟨f2, rfl⟩ : ∃ f2, f = f2 + 1 := by
      cases f with
      | zero => omega
      | succ f2 => exact ⟨f2, rfl⟩
    rw [splitlinesGo_succ_cons, if_neg (fun hx => hcr hx.1),
      if_neg (by rw [hc]; simp)]
    rw [ih (fun d hd => h d (List.mem_cons_of_mem c hd)) (c :: acc) f2
      (by omega)]
    have he : (c :: acc).reverse ++ xs = acc.reverse ++ c :: xs := by
      simp [List.append_assoc]
    rw [he]

/-- `splitlines` of a two-line text: break-free first line, one `\n`,
nonempty break-free second line. -/
theorem splitlinesL_two (xs ys : List Char)
    (hx : ∀ c ∈ xs, lineBreak c = false)
    (hy : ∀ c ∈ ys, lineBreak c = false) (hyne : ys ≠ []) :
    splitlinesL (xs ++ '\n' :: ys) = [xs, ys] := by
  rw [splitlinesL, splitlinesGo_append xs hx ys [] _ (Nat.le_refl _)]
  rw [splitlinesGo_nb ys hy [] ys.length (Nat.le_refl _)]
  simp [hyne]

-- ===========================================================================
-- C5: the `#EXTINF` name is taken after the FIRST comma, not the last.
-- ===========================================================================

theorem dropWhile_cons_false {p : Char → Bool} {c : Char} {l : List Char}
    (h : p c = false) : List.dropWhile p (c :: l) = c :: l := by
  rw [List.dropWhile_cons, if_neg (by simp [h])]

theorem dropWhile_all_append {p : Char → Bool} {ds : List Char} (l : List Char)
    (h : ∀ c ∈ ds, p c = true) :
    List.dropWhile p (ds ++ l) = List.dropWhile p l := by
  induction ds with
  | nil => rfl
  | cons c cs ih =>
    rw [List.cons_append, List.dropWhile_cons,
      if_pos (h c (List.mem_cons_self c cs))]
    exact ih (fun d hd => h d (List.mem_cons_of_mem c hd))

theorem dropWhile_take1 {p : Char → Bool} {s : List Char}
    (h : ∀ c ∈ s.take 1, p c = false) : List.dropWhile p s = s := by
  cases s with
  | nil => rfl
  | cons c cs => exact dropWhile_cons_false (h c (by simp))

theorem stripL_eq_self {s : List Char}
    (h1 : ∀ c ∈ s.take 1, wsp c = false)
    (h2 : ∀ c ∈ s.reverse.take 1, wsp c = false) : stripL s = s := by
  rw [stripL, dropWhile_take1 h1, dropWhile_take1 h2, List.reverse_reverse]

theorem splitFirstComma_append {attrs nm : List Char}
    (hattr : ',' ∉ attrs) (hnm : nm ≠ []) :
    splitFirstComma (attrs ++ ',' :: nm) = (attrs, some nm) := by
  induction attrs with
  | nil =>
    rw [List.nil_append, splitFirstComma, if_pos rfl, if_neg hnm]
  | cons a as ih =>
    have ha : ¬(a = ',') := fun e => hattr (e ▸ List.mem_cons_self a as)
    rw [List.cons_append, splitFirstComma, if_neg ha,
      ih (fun hm => hattr (List.mem_cons_of_mem a hm))]

theorem digit_not_minus {c : Char} (h : c.isDigit = true) : ¬(c = '-') := by
  intro e; subst e; exact absurd h (by decide)

/-- The regex attempt at position 0 of a well-formed `#EXTINF` line: the
attributes group is the text between the whitespace after the digits and the
first comma, the name group is everything after that comma. -/
theorem extinfTryAt_shape (sgn : Bool) (ds attrs nm : List Char)
    (hds : ds ≠ []) (hdsd : ∀ c ∈ ds, c.isDigit = true)
    (hattrC : ',' ∉ attrs) (hattrW : ∀ c ∈ attrs.take 1, wsp c = false)
    (hnm : nm ≠ []) :
    extinfTryAt (extinfLine sgn ds attrs nm) = some (attrs, some nm) := by
  have heq : extinfLine sgn ds attrs nm =
      extinfMark ++ ((if sgn then ['-'] else []) ++
        (ds ++ ' ' :: (attrs ++ ',' :: nm))) := by
    simp [extinfLine, List.append_assoc]
  have hsw : startsWithL extinfMark (extinfLine sgn ds attrs nm) = true := by
    rw [heq]; exact startsWith_append_self _ _
  rw [extinfTryAt, if_pos hsw, heq]
  rw [show (8 : Nat) = extinfMark.length from rfl, List.drop_left]
  obtain ⟨d, ds2, rfl⟩ : ∃ d ds2, ds = d :: ds2 := by
    cases ds with
    | nil => exact absurd rfl hds
    | cons d ds2 => exact ⟨d, ds2, rfl⟩
  have hd : d.isDigit = true := hdsd d (List.mem_cons_self d ds2)
  have ht2 : extinfSkipMinus ((if sgn then ['-'] else []) ++
        ((d :: ds2) ++ ' ' :: (attrs ++ ',' :: nm))) =
      (d :: ds2) ++ ' ' :: (attrs ++ ',' :: nm) := by
    cases sgn with
    | true =>
      have h0 : (if (true = true) then ['-'] else ([] : List Char)) = ['-'] := by
        simp
      rw [h0, extinfSkipMinus, if_pos (by simp)]
      simp
    | false =>
      have h0 : (if (false = true) then ['-'] else ([] : List Char)) = [] := by
        simp
      rw [h0, List.nil_append, extinfSkipMinus,
        if_neg (by simpa using digit_not_minus hd)]
  rw [ht2, extinfAfterMinus, if_pos (by simpa using hd)]
  rw [dropWhile_all_append _ hdsd, dropWhile_cons_false (by decide),
    List.dropWhile_cons, if_pos (by decide)]
  have hX : List.dropWhile wsp (attrs ++ ',' :: nm) = attrs ++ ',' :: nm := by
    apply dropWhile_take1
    cases attrs with
    | nil => simpa using (by decide : wsp ',' = false)
    | cons a as => simpa using hattrW a (by simp)
  rw [hX, splitFirstComma_append hattrC hnm]

theorem extinfSearch_of_tryAt {s : List Char}
    {r : List Char × Option (List Char)}
    (hne : s ≠ []) (h : extinfTryAt s = some r) : extinfSearch s = some r := by
  cases s with
  | nil => exact absurd rfl hne
  | cons c cs => rw [extinfSearch, h]

theorem extinfLine_ne_nil (sgn : Bool) (ds attrs nm : List Char) :
    extinfLine sgn ds attrs nm ≠ [] := by
  have heq : extinfLine sgn ds attrs nm =
      extinfMark ++ ((if sgn then ['-'] else []) ++
        (ds ++ ' ' :: (attrs ++ ',' :: nm))) := by
    simp [extinfLine, List.append_assoc]
  rw [heq]
  exact List.append_ne_nil_of_left_ne_nil (by decide) _

/-- Effect of a well-formed `#EXTINF` line on the accumulator. -/
theorem updateExtinf_shape (acc : Accum) (sgn : Bool) (ds attrs nm : List Char)
    (hds : ds ≠ []) (hdsd : ∀ c ∈ ds, c.isDigit = true)
    (hattrC : ',' ∉ attrs) (hattrW : ∀ c ∈ attrs.take 1, wsp c = false)
    (hnm : nm ≠ []) :
    updateExtinf acc (extinfLine sgn ds attrs nm) =
      ⟨some (stripL nm), some ((extractQuoted logoPat attrs).getD naS),
       some ((extractQuoted groupPat attrs).getD naS)⟩ := by
  rw [updateExtinf, extinfSearch_of_tryAt (extinfLine_ne_nil sgn ds attrs nm)
    (extinfTryAt_shape sgn ds attrs nm hds hdsd hattrC hattrW hnm)]
  rfl

theorem isDigit_not_lineBreak {c : Char} (h : c.isDigit = true) :
    lineBreak c = false := by
  cases hl : lineBreak c with
  | false => rfl
  | true =>
    exfalso
    rw [lineBreak] at hl
    have h3 := of_decide_eq_true hl
    rcases h3 with e | e | e | e | e | e | e | e | e | e <;>
      · subst e; exact absurd h (by decide)

/-- Processing the fixed URL line `http://h/x` emits one stream carrying the
pending metadata. -/
theorem parseLines_url0 (acc : Accum) :
    parseLines [url0] acc = [⟨acc.name, acc.logo, acc.group, url0, none, none⟩] := by
  rw [parseLines]
  rw [(by decide : stripL url0 = url0)]
  rw [if_neg (by decide), if_neg (by decide), if_neg (by decide), mkStream,
    if_pos (by decide)]
  rfl

/-- C5 (amended): on a metadata line `#EXTINF:` + optional minus + digits +
space + attribute text + comma + nonempty name, where the attribute text
contains no comma, the parser sets the pending name to the stripped text
after that FIRST comma, and reads the quoted `tvg-logo` / `group-title`
attributes out of the text BEFORE that comma (default `N/A`). -/
theorem extinf_name_first_comma (sgn : Bool) (ds attrs nm : List Char)
    (hds : ds ≠ []) (hdsd : ∀ c ∈ ds, c.isDigit = true)
    (hattrC : ',' ∉ attrs) (hattrW : ∀ c ∈ attrs.take 1, wsp c = false)
    (hattrNb : ∀ c ∈ attrs, lineBreak c = false)
    (hnm : nm ≠ []) (hnmEnd : ∀ c ∈ nm.reverse.take 1, wsp c = false)
    (hnmNb : ∀ c ∈ nm, lineBreak c = false) :
    parse_m3u (extinfLine sgn ds attrs nm ++ '\n' :: url0) =
      [⟨some (stripL nm), some ((extractQuoted logoPat attrs).getD naS),
        some ((extractQuoted groupPat attrs).getD naS), url0, none, none⟩] := by
  have heq : extinfLine sgn ds attrs nm =
      extinfMark ++ ((if sgn then ['-'] else []) ++
        (ds ++ ' ' :: (attrs ++ ',' :: nm))) := by
    simp [extinfLine, List.append_assoc]
  have hsw : startsWithL extinfMark (extinfLine sgn ds attrs nm) = true := by
    rw [heq]; exact startsWith_append_self _ _
  have hline_nb : ∀ c ∈ extinfLine sgn ds attrs nm, lineBreak c = false := by
    intro c hc
    rw [extinfLine] at hc
    rcases List.mem_append.mp hc with h1 | h2
    · rcases List.mem_append.mp h1 with h3 | h4
      · rcases List.mem_append.mp h3 with h5 | h6
        · exact (by decide : ∀ x ∈ extinfMark, lineBreak x = false) c h5
        · cases sgn with
          | false => simp at h6
          | true =>
            simp at h6
            subst h6
            decide
      · exact isDigit_not_lineBreak (hdsd c h4)
    · rcases List.mem_cons.mp h2 with h5 | h6
      · subst h5; decide
      · rcases List.mem_append.mp h6 with h7 | h8
        · exact hattrNb c h7
        · rcases List.mem_cons.mp h8 with h9 | h10
          · subst h9; decide
          · exact hnmNb c h10
  have h1t : ∀ c ∈ (extinfLine sgn ds attrs nm).take 1, wsp c = false := by
    have ht : (extinfLine sgn ds attrs nm).take 1 = ['#'] := by
      rw [heq, List.take_append_of_le_length (by decide)]
      rfl
    rw [ht]; decide
  have h2t : ∀ c ∈ (extinfLine sgn ds attrs nm).reverse.take 1, wsp c = false := by
    have heq2 : extinfLine sgn ds attrs nm =
        (extinfMark ++ (if sgn then ['-'] else []) ++ ds ++
          ' ' :: attrs ++ [',']) ++ nm := by
      simp [extinfLine, List.append_assoc]
    rw [heq2, List.reverse_append,
      List.take_append_of_le_length (by simpa using List.length_pos.mpr hnm)]
    exact hnmEnd
  have hstrip : stripL (extinfLine sgn ds attrs nm) = extinfLine sgn ds attrs nm :=
    stripL_eq_self h1t h2t
  have hsplit : splitlinesL (extinfLine sgn ds attrs nm ++ '\n' :: url0) =
      [extinfLine sgn ds attrs nm, url0] :=
    splitlinesL_two _ url0 hline_nb (by decide) (by decide)
  rw [parse_m3u, hsplit, parseLines, hstrip]
  rw [if_neg (extinfLine_ne_nil sgn ds attrs nm), if_pos hsw]
  rw [updateExtinf_shape accEmpty sgn ds attrs nm hds hdsd hattrC hattrW hnm]
  exact parseLines_url0 _

/-- Counterexample to C5 as stated: on the line `#EXTINF:-1,a,b` the parser
produces the display name `a,b` (the text after the first comma), whereas
the text after the last comma is `b`. -/
theorem extinf_name_last_comma_cex :
    (parse_m3u cx5content).map Stream.name = [some cx5name] ∧
    cx5name ≠ cx5lastComma :=
  ⟨by decide, by decide⟩

/-- Witness for the amended C5 at the spec's own example metadata line
`#EXTINF:-1 tvg-logo="l" group-title="G",Chan1`. -/
theorem extinf_name_first_comma_witness :
    parse_m3u (extinfLine true ds5 attrs5 nm5 ++ '\n' :: url0) =
      [⟨some ex5name, some ex5logo, some ex5group, url0, none, none⟩] := by
  rw [extinf_name_first_comma true ds5 attrs5 nm5 (by decide) (by decide)
    (by decide) (by decide) (by decide) (by decide) (by decide) (by decide)]
  decide

-- ===========================================================================
-- C6: the live-playlist round trip strips the referer before re-attaching.
-- ===========================================================================

theorem noPipe_split_none {s : List Char} (h : '|' ∉ s) :
    splitOnFirst refSep s = none := by
  induction s with
  | nil => rfl
  | cons c cs ih =>
    have hc : ¬(c = '|') := fun e => h (e ▸ List.mem_cons_self c cs)
    have hsw : ¬(startsWithL refSep (c :: cs) = true) := by
      rw [show refSep = '|' :: refSepTail from rfl]
      simp only [startsWithL, Bool.and_eq_true, beq_iff_eq]
      exact fun hx => hc hx.1.symm
    rw [splitOnFirst, if_neg hsw,
      ih (fun hm => h (List.mem_cons_of_mem c hm))]

theorem splitOnFirst_at_sep {u : List Char} (r : List Char) (h : '|' ∉ u) :
    splitOnFirst refSep (u ++ refSep ++ r) = some (u, r) := by
  induction u with
  | nil =>
    simp only [List.nil_append]
    have hsw : startsWithL refSep ('|' :: (refSepTail ++ r)) = true := by
      rw [show ('|' :: (refSepTail ++ r)) = refSep ++ r from rfl]
      exact startsWith_append_self _ _
    rw [show refSep ++ r = '|' :: (refSepTail ++ r) from rfl, splitOnFirst,
      if_pos hsw,
      show ('|' :: (refSepTail ++ r)) = refSep ++ r from rfl, List.drop_left]
  | cons c cs ih =>
    have hc : ¬(c = '|') := fun e => h (e ▸ List.mem_cons_self c cs)
    simp only [List.cons_append]
    have hsw : ¬(startsWithL refSep (c :: (cs ++ refSep ++ r)) = true) := by
      rw [show refSep = '|' :: refSepTail from rfl]
      simp only [startsWithL, Bool.and_eq_true, beq_iff_eq]
      exact fun hx => hc hx.1.symm
    rw [splitOnFirst, if_neg hsw,
      ih (fun hm => h (List.mem_cons_of_mem c hm))]

theorem splitRefererGo_none (n : Nat) {b : List Char}
    (h : splitOnFirst refSep b = none) : splitRefererGo n b = [b] := by
  cases n with
  | zero => rfl
  | succ n => rw [splitRefererGo, h]

theorem splitReferer_pair {u r : List Char} (hu : '|' ∉ u) (hr : '|' ∉ r) :
    splitReferer (u ++ refSep ++ r) = [u, r] := by
  rw [splitReferer]
  obtain ⟨n, hn⟩ : ∃ n, (u ++ refSep ++ r).length = n + 1 := by
    refine ⟨(u ++ refSep ++ r).length - 1, ?_⟩
    have h9 : 0 < (u ++ refSep ++ r).length := by
      simp [refSep, List.length_append]
    omega
  rw [hn, splitRefererGo, splitOnFirst_at_sep r hu]
  show u :: splitRefererGo n r = [u, r]
  rw [splitRefererGo_none n (noPipe_split_none hr)]

theorem check_stream_extract_pair {u r : List Char} (hu : '|' ∉ u)
    (hr : '|' ∉ r) (hrs : stripL r = r) :
    check_stream_extract (u ++ refSep ++ r) = some (u, r) := by
  have hcs : containsSub refSep (u ++ refSep ++ r) = true := by
    rw [containsSub, splitOnFirst_at_sep r hu]; rfl
  rw [check_stream_extract, if_pos hcs, splitReferer_pair hu hr]
  show some (u, stripL r) = some (u, r)
  rw [hrs]

theorem headD_append {u z : List Char} {d : Char} (h : u ≠ []) :
    (u ++ z).headD d = u.headD d := by
  cases u with
  | nil => exact absurd rfl h
  | cons c cs => rfl

theorem fetch_playlist_pair (info u r : List Char)
    (hInfoPre : startsWithL extinfMark7 info = true)
    (hInfoStrip : stripL info = info)
    (hInfoNb : ∀ c ∈ info, lineBreak c = false)
    (hu : startsWithL httpMark u = true)
    (hLineStrip : stripL (u ++ refSep ++ r) = u ++ refSep ++ r)
    (hLineNb : ∀ c ∈ u ++ refSep ++ r, lineBreak c = false) :
    fetch_playlist (info ++ '\n' :: (u ++ refSep ++ r)) =
      [(some info, u ++ refSep ++ r)] := by
  have hune : u ≠ [] := by
    rw [show httpMark = 'h' :: "ttp".toList from rfl] at hu
    exact startsWith_ne_nil hu
  have hne : u ++ refSep ++ r ≠ [] :=
    List.append_ne_nil_of_left_ne_nil
      (List.append_ne_nil_of_left_ne_nil hune refSep) r
  have hInfoNe : info ≠ [] := by
    rw [show extinfMark7 = '#' :: "EXTINF".toList from rfl] at hInfoPre
    exact startsWith_ne_nil hInfoPre
  have hu0 : u.headD ' ' = 'h' := by
    rw [show httpMark = 'h' :: "ttp".toList from rfl] at hu
    exact startsWith_headD ' ' hu
  have hNotExtinf : ¬(startsWithL extinfMark7 (u ++ refSep ++ r) = true) := by
    intro hx
    rw [show extinfMark7 = '#' :: "EXTINF".toList from rfl] at hx
    have h0 := startsWith_headD ' ' hx
    rw [List.append_assoc, headD_append hune, hu0] at h0
    cases h0
  have hHttp : startsWithL httpMark (u ++ refSep ++ r) = true :=
    startsWith_extend r (startsWith_extend refSep hu)
  rw [fetch_playlist, splitlinesL_two info _ hInfoNb hLineNb hne]
  rw [fpAux, hInfoStrip, if_neg hInfoNe, if_pos hInfoPre]
  rw [fpAux, hLineStrip, if_neg hne, if_neg hNotExtinf, if_pos hHttp]
  rfl

theorem live_links_entry_pair (info : List Char) {u r : List Char}
    (hu : '|' ∉ u) (hr : '|' ∉ r) (hrs : stripL r = r) (hrne : r ≠ []) :
    live_links_entry (some info, u ++ refSep ++ r) =
      some (info ++ '\n' :: ((u ++ refSep ++ r) ++ ['\n'])) := by
  rw [live_links_entry, check_stream_extract_pair hu hr hrs]
  show some (info ++ ['\n'] ++ serializeStreamLine u r) = _
  rw [serializeStreamLine, if_neg hrne]
  simp [List.append_assoc]

/-- C6 (amended): parsing a metadata+URL pair whose URL line carries a
`|Referer=` suffix, then re-serializing the (live) entry, reproduces the
original two lines exactly — the URL and the whole `|Referer=` suffix —
provided the referer text is nonempty and already whitespace-stripped and
neither URL nor referer contains another `|`.  (`check_stream` strips the
referer, so a referer with surrounding whitespace is re-attached in stripped
form; see the counterexample.) -/
theorem referer_roundtrip_amended (info u r : List Char)
    (hInfoPre : startsWithL extinfMark7 info = true)
    (hInfoStrip : stripL info = info)
    (hInfoNb : ∀ c ∈ info, lineBreak c = false)
    (hu : startsWithL httpMark u = true)
    (huPipe : '|' ∉ u) (hrPipe : '|' ∉ r)
    (hrne : r ≠ []) (hrStrip : stripL r = r)
    (hLineStrip : stripL (u ++ refSep ++ r) = u ++ refSep ++ r)
    (hLineNb : ∀ c ∈ u ++ refSep ++ r, lineBreak c = false) :
    fetch_playlist (info ++ '\n' :: (u ++ refSep ++ r)) =
      [(some info, u ++ refSep ++ r)] ∧
    live_links_entry (some info, u ++ refSep ++ r) =
      some ((info ++ '\n' :: (u ++ refSep ++ r)) ++ ['\n']) := by
  refine ⟨fetch_playlist_pair info u r hInfoPre hInfoStrip hInfoNb hu
    hLineStrip hLineNb, ?_⟩
  rw [live_links_entry_pair info huPipe hrPipe hrStrip hrne]
  simp [List.append_assoc]

/-- Counterexample to C6 as stated: the URL line
`http://a/x|Referer= http://r` (referer with a leading space) is
re-serialized as `http://a/x|Referer=http://r` — the URL survives but the
`|Referer=` suffix is NOT re-attached exactly as it appeared. -/
theorem referer_roundtrip_cex :
    fetch_playlist cx6body = [(some cx6info, cx6line)] ∧
    live_links_entry (some cx6info, cx6line) =
      some (cx6info ++ '\n' :: cx6ser) ∧
    cx6ser ≠ cx6line ++ ['\n'] :=
  ⟨by decide, by decide, by decide⟩

/-- Witness for the amended C6 at a concrete pair with a clean referer. -/
theorem referer_roundtrip_amended_witness :
    fetch_playlist (info6 ++ '\n' :: (u6 ++ refSep ++ r6)) =
      [(some info6, u6 ++ refSep ++ r6)] ∧
    live_links_entry (some info6, u6 ++ refSep ++ r6) =
      some ((info6 ++ '\n' :: (u6 ++ refSep ++ r6)) ++ ['\n']) :=
  referer_roundtrip_amended info6 u6 r6 (by decide) (by decide) (by decide)
    (by decide) (by decide) (by decide) (by decide) (by decide) (by decide)
    (by decide)

end M3U
